import Mathlib

/-!
Verification of `zipline/extensions.py`: the dotted-path command-line
argument parser (`parse_extension_arg`, `update_namespace`, `create_args`)
and the extension registry (`RegistrationManager` and its module-level
facade functions).

Python dictionaries are modelled as association lists with
insert-or-update-in-place semantics (`setAssoc`), which preserves the
insertion order exactly as CPython dicts do.  Exceptions are modelled with
`Except` / explicit error components; raising an exception in Python
aborts the call without touching state that the callee had not yet
assigned, which the functional style mirrors.

The character classes of the source regex `[^\d\W]` and `\w` are the
identifier classes `[A-Za-z_]` and `[A-Za-z0-9_]` stated by the
documentation; the development models strings over that (ASCII) alphabet.
The dot in `(.*)$` does not match a newline and `$` also matches just
before a single trailing newline, which `valueTail` reproduces.
-/

set_option autoImplicit false

namespace ZiplineExtensions

universe u v

/-- Python `d[k]` lookup on a dict modelled as an association list. -/
def lookupAssoc {κ : Type u} {α : Type v} [DecidableEq κ] : List (κ × α) → κ → Option α
  | [], _ => none
  | (k', v) :: t, k => if k' = k then some v else lookupAssoc t k

/-- Python `d[k] = v`: update in place when the key is present, else append
(CPython dicts keep the first-insertion position on overwrite). -/
def setAssoc {κ : Type u} {α : Type v} [DecidableEq κ] : List (κ × α) → κ → α → List (κ × α)
  | [], k, v => [(k, v)]
  | (k', v') :: t, k, v => if k' = k then (k, v) :: t else (k', v') :: setAssoc t k v

/-! ### The regex `^(([^\d\W]\w*)(\.[^\d\W]\w*)*)=(.*)$` -/

/-- `[^\d\W]` — a word character that is not a digit: `[A-Za-z_]`. -/
def isIdentStart (c : Char) : Bool := c.isAlpha || c == '_'

/-- `\w` — `[A-Za-z0-9_]`. -/
def isWordChar (c : Char) : Bool := c.isAlpha || c.isDigit || c == '_'

/-- Scanner state while matching group 1, `[^\d\W]\w*(\.[^\d\W]\w*)*`. -/
inductive ScanState where
  | expectIdent
  | inIdent

/-- Deterministic scan of group 1 of the regex.  No backtracking is needed:
the group's characters are word characters and dots, so shrinking a greedy
`\w*` or ending the `(\.ident)*` loop while standing on a `.` can never let
the following literal `=` match.  Returns the consumed characters and the
remainder, or `none` when the regex cannot match. -/
def scanPathAux : ScanState → List Char → Option (List Char × List Char)
  | .expectIdent, [] => none
  | .expectIdent, c :: cs =>
    if isIdentStart c then (scanPathAux .inIdent cs).map (fun p => (c :: p.1, p.2)) else none
  | .inIdent, [] => some ([], [])
  | .inIdent, c :: cs =>
    if isWordChar c then (scanPathAux .inIdent cs).map (fun p => (c :: p.1, p.2))
    else if c = '.' then (scanPathAux .expectIdent cs).map (fun p => (c :: p.1, p.2))
    else some ([], c :: cs)

def scanPath (cs : List Char) : Option (List Char × List Char) :=
  scanPathAux .expectIdent cs

/-- Group 4, `(.*)$`: succeeds when the remainder contains no newline other
than possibly one trailing newline, and captures everything before it. -/
def valueTail (v : List Char) : Option (List Char) :=
  match v.dropWhile (fun c => c != '\n') with
  | [] => some (v.takeWhile (fun c => c != '\n'))
  | ['\n'] => some (v.takeWhile (fun c => c != '\n'))
  | _ => none

/-- `re.match` of the source regex against `s`: the dotted name (group 1)
and the value (group 4), or `none` when the regex does not match. -/
def parseArg (s : String) : Option (String × String) :=
  match scanPath s.data with
  | none => none
  | some (name, rest) =>
    match rest with
    | [] => none
    | c :: v =>
      if c = '=' then (valueTail v).map (fun core => (String.mk name, String.mk core))
      else none

inductive ExtError where
  | invalidArgumentSyntax (arg : String)
  | conflictingNamespaceAssignment (segment : String)
  | emptyPath

/-- `parse_extension_arg(arg, arg_dict)`: on a regex match, stores
`group(1) -> group(4)` into the dict; otherwise raises the
"invalid extension argument" `ValueError` naming the raw string. -/
def parse_extension_arg (arg : String) (arg_dict : List (String × String)) :
    Except ExtError (List (String × String)) :=
  match parseArg arg with
  | some (name, value) => .ok (setAssoc arg_dict name value)
  | none => .error (.invalidArgumentSyntax arg)

/-! ### Declarative reading of the grammar (from the specification text)

The spec describes the accepted strings as `identifier(.identifier)*=value`
with the split at the *first* `=`.  `grammarParse` is that description:
split at the first `=`, require every dot-separated segment of the left
part to be an identifier, and take the value from the remainder. -/

/-- Split a character list at its first `'='`. -/
def splitFirstEq : List Char → Option (List Char × List Char)
  | [] => none
  | c :: cs =>
    if c = '=' then some ([], cs)
    else (splitFirstEq cs).map (fun p => (c :: p.1, p.2))

/-- Python's `str.split('.')` on the character level. -/
def splitOnDot : List Char → List (List Char)
  | [] => [[]]
  | c :: cs =>
    if c = '.' then [] :: splitOnDot cs
    else
      match splitOnDot cs with
      | s :: rest => (c :: s) :: rest
      | [] => [[c]]

/-- `[A-Za-z_][A-Za-z0-9_]*`. -/
def isIdentStr : List Char → Bool
  | [] => false
  | c :: cs => isIdentStart c && cs.all isWordChar

/-- Every dot-separated segment is a (nonempty) identifier. -/
def dottedOk (cs : List Char) : Bool := (splitOnDot cs).all isIdentStr

/-- Modelled from the spec: the grammar `identifier(.identifier)*=value`,
split at the first `=`. -/
def grammarParse (s : String) : Option (String × String) :=
  match splitFirstEq s.data with
  | none => none
  | some (name, rest) =>
    if dottedOk name then (valueTail rest).map (fun core => (String.mk name, String.mk core))
    else none

def matchesGrammar (s : String) : Bool := (grammarParse s).isSome

/-- Inverse of `splitOnDot`: re-join segments with `'.'`. -/
def joinDots : List (List Char) → List Char
  | [] => []
  | [s] => s
  | s :: rest => s ++ '.' :: joinDots rest

/-! ### Namespace tree -/

/-- An attribute of a `Namespace` object holds either a string leaf or a
nested `Namespace` (the only two shapes `update_namespace` produces). -/
inductive NSTree where
  | leaf (value : String)
  | node (attrs : List (String × NSTree))

/-- The attribute dictionary of one `Namespace` object. -/
abbrev NSAttrs := List (String × NSTree)

/-- `update_namespace(namespace, path, name)`: at the last segment, set the
attribute to the string value (overwriting whatever was there); at an inner
segment, refuse to descend through a string (`ValueError` naming the
segment), descend through an existing `Namespace`, or attach a fresh empty
`Namespace` and descend into it.  A Python call either raises before any
mutation or fully succeeds: an inner error is only reachable while all
segments so far hit pre-existing attributes, because a freshly created
namespace is empty and can never conflict further down. -/
def update_namespace : NSAttrs → List String → String → Except ExtError NSAttrs
  | _, [], _ => .error .emptyPath
  | attrs, [p], value => .ok (setAssoc attrs p (.leaf value))
  | attrs, p :: q :: rest, value =>
    match lookupAssoc attrs p with
    | some (.leaf _) => .error (.conflictingNamespaceAssignment p)
    | some (.node sub) =>
      (update_namespace sub (q :: rest) value).map (fun sub' => setAssoc attrs p (.node sub'))
    | none =>
      (update_namespace [] (q :: rest) value).map (fun sub' => setAssoc attrs p (.node sub'))

/-- Python's `name.split('.')`. -/
def splitPath (s : String) : List String := (splitOnDot s.data).map String.mk

/-- The first loop of `create_args`: parse every raw argument into the
`extension_args` dict; the first syntax error aborts the whole call. -/
def parsePhase : List String → List (String × String) → Except ExtError (List (String × String))
  | [], acc => .ok acc
  | a :: rest, acc =>
    match parse_extension_arg a acc with
    | .ok acc' => parsePhase rest acc'
    | .error e => .error e

/-- `sorted(extension_args, key=len)` paired with the dict lookup of each
name: a stable sort of the dict's entries by ascending name length.  Since
the keys are distinct, iterating the sorted keys and looking each one up is
the same as iterating the stably sorted entries. -/
def sortPairsByLen (l : List (String × String)) : List (String × String) :=
  List.insertionSort (fun a b => a.1.length ≤ b.1.length) l

/-- The second loop of `create_args`: apply each entry to the root.  The
root is mutated in place in Python, so an error keeps every mutation made
by the entries already applied and discards nothing. -/
def applyPhase : List (String × String) → NSAttrs → NSAttrs × Option ExtError
  | [], root => (root, none)
  | (n, v) :: rest, root =>
    match update_namespace root (splitPath n) v with
    | .ok root' => applyPhase rest root'
    | .error e => (root, some e)

/-- `create_args(args, root)`. -/
def create_args (args : List String) (root : NSAttrs) : NSAttrs × Option ExtError :=
  match parsePhase args [] with
  | .ok acc => applyPhase (sortPairsByLen acc) root
  | .error e => (root, some e)

/-! ### Instrumentation of `create_args` for the temporal claims -/

/-- The value stored at a (nonempty) dotted position, descending only
through namespace nodes. -/
def getPath : NSAttrs → List String → Option NSTree
  | _, [] => none
  | attrs, [p] => lookupAssoc attrs p
  | attrs, p :: q :: rest =>
    match lookupAssoc attrs p with
    | some (.node sub) => getPath sub (q :: rest)
    | _ => none

/-- Whether applying `path` now would overwrite a namespace node with a
string leaf at the final segment. -/
def finalOverwritesNode (attrs : NSAttrs) (path : List String) : Bool :=
  match getPath attrs path with
  | some (.node _) => true
  | _ => false

/-- Instrumented replay of `applyPhase`: `true` iff some step overwrites a
namespace node with a leaf at its final segment before the run ends
(successfully or with an error). -/
def applyPhaseCheck : List (String × String) → NSAttrs → Bool
  | [], _ => false
  | (n, v) :: rest, root =>
    finalOverwritesNode root (splitPath n) ||
      match update_namespace root (splitPath n) v with
      | .ok root' => applyPhaseCheck rest root'
      | .error _ => false

/-- Apply a list of entries, succeeding only when every step succeeds. -/
def applyAllOk : List (String × String) → NSAttrs → Option NSAttrs
  | [], root => some root
  | (n, v) :: rest, root =>
    match update_namespace root (splitPath n) v with
    | .ok root' => applyAllOk rest root'
    | .error _ => none

/-- The value the parsing phase is expected to leave for name `n`: the
value of the latest argument in input order that parses to name `n`. -/
def lastValue (args : List String) (n : String) : Option String :=
  args.foldl (fun r s =>
    match parseArg s with
    | some (m, v) => if m = n then some v else r
    | none => r) none

/-- The scan of group 1 may stop only at the end of the input or before a
character that can neither extend an identifier nor start a `.segment`. -/
def stopOk : List Char → Prop
  | [] => True
  | c :: _ => isWordChar c = false ∧ c ≠ '.'

/-- The language accepted from state `inIdent`: `\w*(\.[^\d\W]\w*)*`. -/
def tailOk (cs : List Char) : Bool :=
  match splitOnDot cs with
  | [] => false
  | s :: rest => s.all isWordChar && rest.all isIdentStr

/-- The language accepted from each scanner state. -/
def stateOk : ScanState → List Char → Bool
  | .expectIdent => dottedOk
  | .inIdent => tailOk

/-! ### The registry: `RegistrationManager` and the module-level facade

The development is parametric in the type `Cls` of Python classes, in the
Boolean subclass relation `issub` (Python `issubclass`) and in the name
function `clsName` (Python `__name__`), none of which the registry code
inspects beyond the uses below.  Error messages are modelled structurally:
each error carries exactly the data interpolated into the Python message. -/

inductive RegError where
  | capabilityNotDeclared
  | nameNotRegistered (dtypeName : String) (name : String) (options : List String)
  | duplicateRegistration (dtypeName : String) (name : String)
  | typeMismatch (dtypeName : String)

/-- `RegistrationManager.__init__`: `dtype` plus the `_classes` dict. -/
structure RegistrationManager (Cls : Type u) where
  dtype : Cls
  classes : List (String × Cls)

/-- Python `sorted` on strings: lexicographic by code point. -/
def sortedNames (l : List String) : List String :=
  List.insertionSort (fun a b : String => a ≤ b) l

section Registry

variable {Cls : Type u} [DecidableEq Cls]

/-- `RegistrationManager.class_registered`. -/
def RegistrationManager.class_registered (m : RegistrationManager Cls) (name : String) : Bool :=
  (lookupAssoc m.classes name).isSome

/-- `RegistrationManager.load`: the registered class, or a `ValueError`
carrying the dtype name, the requested name and `sorted(self._classes)`. -/
def RegistrationManager.load (clsName : Cls → String) (m : RegistrationManager Cls)
    (name : String) : Except RegError Cls :=
  match lookupAssoc m.classes name with
  | some c => .ok c
  | none =>
    .error (.nameNotRegistered (clsName m.dtype) name (sortedNames (m.classes.map Prod.fst)))

/-- `RegistrationManager.register` (with the class supplied): duplicate
check, then subclass check, then insertion; returns the class unchanged. -/
def RegistrationManager.register (issub : Cls → Cls → Bool) (clsName : Cls → String)
    (m : RegistrationManager Cls) (name : String) (custom_class : Cls) :
    Except RegError (RegistrationManager Cls × Cls) :=
  if m.class_registered name then
    .error (.duplicateRegistration (clsName m.dtype) name)
  else if !issub custom_class m.dtype then
    .error (.typeMismatch (clsName m.dtype))
  else
    .ok ({ m with classes := setAssoc m.classes name custom_class }, custom_class)

/-- `RegistrationManager.unregister`. -/
def RegistrationManager.unregister (clsName : Cls → String) (m : RegistrationManager Cls)
    (name : String) : Except RegError (RegistrationManager Cls) :=
  match lookupAssoc m.classes name with
  | some _ => .ok { m with classes := (m.classes.filter (fun p => p.1 ≠ name)) }
  | none => .error (.nameNotRegistered (clsName m.dtype) name [])

/-- `RegistrationManager.clear`: `self._classes.clear()`. -/
def RegistrationManager.clear (m : RegistrationManager Cls) : RegistrationManager Cls :=
  { m with classes := [] }

/-- The global `custom_types` dict: capability type -> manager. -/
abbrev Registry (Cls : Type u) := List (Cls × RegistrationManager Cls)

/-- `get_registration_manager`. -/
def get_registration_manager (reg : Registry Cls) (dtype : Cls) :
    Except RegError (RegistrationManager Cls) :=
  match lookupAssoc reg dtype with
  | some m => .ok m
  | none => .error .capabilityNotDeclared

/-- Facade `load(dtype, name)`. -/
def load (clsName : Cls → String) (reg : Registry Cls) (dtype : Cls) (name : String) :
    Except RegError Cls :=
  (get_registration_manager reg dtype).bind (fun m => m.load clsName name)

/-- Facade `class_registered(dtype, name)`. -/
def class_registered (reg : Registry Cls) (dtype : Cls) (name : String) : Except RegError Bool :=
  (get_registration_manager reg dtype).map (fun m => m.class_registered name)

/-- Facade `register(dtype, name, custom_class)`.  The Python facade
mutates the manager held in `custom_types` in place; here the registry
entry is replaced by the updated manager. -/
def register (issub : Cls → Cls → Bool) (clsName : Cls → String) (reg : Registry Cls)
    (dtype : Cls) (name : String) (custom_class : Cls) :
    Except RegError (Registry Cls × Cls) :=
  (get_registration_manager reg dtype).bind (fun m =>
    (m.register issub clsName name custom_class).map (fun p => (setAssoc reg dtype p.1, p.2)))

/-- Facade `clear(dtype)`. -/
def clear (reg : Registry Cls) (dtype : Cls) : Except RegError (Registry Cls) :=
  (get_registration_manager reg dtype).map (fun m => setAssoc reg dtype m.clear)

/-- `create_registration_manager(dtype)`: store a fresh manager and return
the dtype unchanged. -/
def create_registration_manager (reg : Registry Cls) (dtype : Cls) : Registry Cls × Cls :=
  (setAssoc reg dtype ⟨dtype, []⟩, dtype)

end Registry

/-! ## Character-class and segment lemmas -/

theorem isIdentStart_word {c : Char} (h : isIdentStart c = true) : isWordChar c = true := by
  simp only [isIdentStart, Bool.or_eq_true] at h
  simp only [isWordChar, Bool.or_eq_true]
  rcases h with h | h
  · exact Or.inl (Or.inl h)
  · exact Or.inr h

theorem isWordChar_ne_dot {c : Char} (h : isWordChar c = true) : c ≠ '.' := by
  intro he
  subst he
  exact absurd h (by decide)

theorem isIdentStart_ne_dot {c : Char} (h : isIdentStart c = true) : c ≠ '.' :=
  isWordChar_ne_dot (isIdentStart_word h)

theorem splitOnDot_exists (cs : List Char) : ∃ s rest, splitOnDot cs = s :: rest := by
  induction cs with
  | nil => exact ⟨[], [], rfl⟩
  | cons c cs ih =>
    obtain ⟨s, rest, h⟩ := ih
    by_cases hc : c = '.'
    · exact ⟨[], splitOnDot cs, by simp [splitOnDot, hc]⟩
    · exact ⟨c :: s, rest, by simp [splitOnDot, hc, h]⟩

theorem splitOnDot_dot (cs : List Char) : splitOnDot ('.' :: cs) = [] :: splitOnDot cs := by
  simp [splitOnDot]

theorem splitOnDot_cons {c : Char} {cs s : List Char} {rest : List (List Char)}
    (hc : c ≠ '.') (h : splitOnDot cs = s :: rest) :
    splitOnDot (c :: cs) = (c :: s) :: rest := by
  simp [splitOnDot, hc, h]

theorem dottedOk_dot_cons (cs : List Char) : dottedOk ('.' :: cs) = false := by
  simp [dottedOk, splitOnDot_dot, isIdentStr]

theorem dottedOk_cons {c : Char} (hc : c ≠ '.') (cs : List Char) :
    dottedOk (c :: cs) = (isIdentStart c && tailOk cs) := by
  obtain ⟨s, rest, h⟩ := splitOnDot_exists cs
  simp [dottedOk, splitOnDot_cons hc h, tailOk, h, isIdentStr, Bool.and_assoc]

theorem tailOk_nil : tailOk [] = true := by
  simp [tailOk, splitOnDot]

theorem dottedOk_nil : dottedOk [] = false := by
  simp [dottedOk, splitOnDot, isIdentStr]

theorem tailOk_dot_cons (cs : List Char) : tailOk ('.' :: cs) = dottedOk cs := by
  simp [tailOk, splitOnDot_dot, dottedOk]

theorem tailOk_word_cons {c : Char} (hw : isWordChar c = true) (cs : List Char) :
    tailOk (c :: cs) = tailOk cs := by
  obtain ⟨s, rest, h⟩ := splitOnDot_exists cs
  simp [tailOk, splitOnDot_cons (isWordChar_ne_dot hw) h, h, hw]

theorem tailOk_other_cons {c : Char} (hw : isWordChar c = false) (hc : c ≠ '.')
    (cs : List Char) : tailOk (c :: cs) = false := by
  obtain ⟨s, rest, h⟩ := splitOnDot_exists cs
  simp [tailOk, splitOnDot_cons hc h, hw]

theorem dottedOk_tailOk {cs : List Char} (h : dottedOk cs = true) : tailOk cs = true := by
  obtain ⟨s, rest, hs⟩ := splitOnDot_exists cs
  simp only [dottedOk, hs, List.all_cons, Bool.and_eq_true] at h
  obtain ⟨h1, h2⟩ := h
  simp only [tailOk, hs, Bool.and_eq_true]
  refine ⟨?_, h2⟩
  cases s with
  | nil => simp
  | cons a s =>
    simp only [isIdentStr, Bool.and_eq_true] at h1
    simp only [List.all_cons, Bool.and_eq_true]
    exact ⟨isIdentStart_word h1.1, h1.2⟩

theorem tailOk_mem {cs : List Char} (h : tailOk cs = true) :
    ∀ c ∈ cs, isWordChar c = true ∨ c = '.' := by
  induction cs with
  | nil => intro c hc; simp at hc
  | cons a cs ih =>
    intro c hc
    by_cases ha : a = '.'
    · subst ha
      rw [tailOk_dot_cons] at h
      rcases List.mem_cons.mp hc with rfl | hc
      · exact Or.inr rfl
      · exact ih (dottedOk_tailOk h) c hc
    · by_cases hw : isWordChar a = true
      · rw [tailOk_word_cons hw] at h
        rcases List.mem_cons.mp hc with rfl | hc
        · exact Or.inl hw
        · exact ih h c hc
      · rw [tailOk_other_cons (Bool.eq_false_iff.mpr hw) ha] at h
        cases h

theorem dottedOk_mem {cs : List Char} (h : dottedOk cs = true) :
    ∀ c ∈ cs, isWordChar c = true ∨ c = '.' :=
  tailOk_mem (dottedOk_tailOk h)

theorem dottedOk_no_eq {name : List Char} (h : dottedOk name = true) : '=' ∉ name := by
  intro hm
  rcases dottedOk_mem h '=' hm with hw | hd
  · exact absurd hw (by decide)
  · exact absurd hd (by decide)

/-! ## `splitFirstEq` lemmas -/

theorem splitFirstEq_append {xs : List Char} (h : '=' ∉ xs) (ys : List Char) :
    splitFirstEq (xs ++ ys) = (splitFirstEq ys).map (fun p => (xs ++ p.1, p.2)) := by
  induction xs with
  | nil =>
    cases hys : splitFirstEq ys with
    | none => simp [hys]
    | some p => simp [hys]
  | cons x xs ih =>
    have hx : x ≠ '=' := fun he => h (he ▸ List.mem_cons_self x xs)
    have h' : '=' ∉ xs := fun hm => h (List.mem_cons_of_mem x hm)
    simp only [List.cons_append, splitFirstEq, ih h']
    rw [if_neg hx]
    cases hys : splitFirstEq ys with
    | none => simp [ih h', hys]
    | some p => simp [ih h', hys]

theorem splitFirstEq_none {cs : List Char} : splitFirstEq cs = none ↔ '=' ∉ cs := by
  induction cs with
  | nil => simp [splitFirstEq]
  | cons c cs ih =>
    by_cases hc : c = '='
    · subst hc
      simp [splitFirstEq]
    · simp [splitFirstEq, hc, ih, Ne.symm hc]

theorem splitFirstEq_sound {cs a b : List Char} (h : splitFirstEq cs = some (a, b)) :
    cs = a ++ '=' :: b ∧ '=' ∉ a := by
  induction cs generalizing a b with
  | nil => simp [splitFirstEq] at h
  | cons c cs ih =>
    by_cases hc : c = '='
    · subst hc
      simp only [splitFirstEq, if_pos rfl, Option.some.injEq, Prod.mk.injEq] at h
      obtain ⟨rfl, rfl⟩ := h
      exact ⟨rfl, by simp⟩
    · simp only [splitFirstEq, hc, if_false, Option.map_eq_some'] at h
      obtain ⟨⟨a', b'⟩, hx, heq⟩ := h
      obtain ⟨ha, hb⟩ : c :: a' = a ∧ b' = b := by
        constructor <;> injection heq
      subst ha
      subst hb
      obtain ⟨hcs, hmem⟩ := ih hx
      constructor
      · simp [hcs]
      · intro hm
        rcases List.mem_cons.mp hm with he | hm
        · exact hc he.symm
        · exact hmem hm

/-! ## Scanner characterization -/

theorem scanPathAux_spec (cs : List Char) :
    ∀ (st : ScanState) (name rest : List Char),
      scanPathAux st cs = some (name, rest) ↔
        (cs = name ++ rest ∧ stateOk st name = true ∧ stopOk rest) := by
  induction cs with
  | nil =>
    intro st name rest
    cases st with
    | expectIdent =>
      constructor
      · intro h
        simp [scanPathAux] at h
      · rintro ⟨hcs, hok, _⟩
        obtain ⟨rfl, rfl⟩ := (List.append_eq_nil).mp hcs.symm
        have hok' : dottedOk [] = true := hok
        rw [dottedOk_nil] at hok'
        cases hok'
    | inIdent =>
      constructor
      · intro h
        simp only [scanPathAux, Option.some.injEq, Prod.mk.injEq] at h
        obtain ⟨rfl, rfl⟩ := h
        exact ⟨rfl, tailOk_nil, trivial⟩
      · rintro ⟨hcs, _, _⟩
        obtain ⟨rfl, rfl⟩ := (List.append_eq_nil).mp hcs.symm
        simp [scanPathAux]
  | cons c cs ih =>
    intro st name rest
    cases st with
    | expectIdent =>
      by_cases hs : isIdentStart c = true
      · constructor
        · intro h
          simp only [scanPathAux] at h
          rw [if_pos hs, Option.map_eq_some'] at h
          obtain ⟨⟨n', r'⟩, hscan, heq⟩ := h
          injection heq with h1 h2
          subst h1
          subst h2
          obtain ⟨hcs, hok, hstop⟩ := (ih .inIdent n' r').mp hscan
          subst hcs
          refine ⟨rfl, ?_, hstop⟩
          show dottedOk (c :: n') = true
          rw [dottedOk_cons (isIdentStart_ne_dot hs)]
          have hok' : tailOk n' = true := hok
          simp [hs, hok']
        · rintro ⟨hcs, hok, hstop⟩
          cases name with
          | nil =>
            simp only [List.nil_append] at hcs
            subst hcs
            obtain ⟨hw, _⟩ := hstop
            exact absurd (isIdentStart_word hs) (by simp [hw])
          | cons a n' =>
            injection hcs with h1 h2
            subst h1
            have hok' : dottedOk (c :: n') = true := hok
            rw [dottedOk_cons (isIdentStart_ne_dot hs)] at hok'
            simp only [Bool.and_eq_true] at hok'
            have hrec := (ih .inIdent n' rest).mpr ⟨h2, hok'.2, hstop⟩
            simp only [scanPathAux]
            rw [if_pos hs, hrec]
            rfl
      · constructor
        · intro h
          simp only [scanPathAux] at h
          rw [if_neg hs] at h
          cases h
        · rintro ⟨hcs, hok, hstop⟩
          exfalso
          cases name with
          | nil =>
            have hok' : dottedOk [] = true := hok
            rw [dottedOk_nil] at hok'
            cases hok'
          | cons a n' =>
            injection hcs with h1 h2
            subst h1
            have hok' : dottedOk (c :: n') = true := hok
            by_cases hc : c = '.'
            · subst hc
              rw [dottedOk_dot_cons] at hok'
              cases hok'
            · rw [dottedOk_cons hc] at hok'
              simp only [Bool.and_eq_true] at hok'
              exact hs hok'.1
    | inIdent =>
      by_cases hw : isWordChar c = true
      · constructor
        · intro h
          simp only [scanPathAux] at h
          rw [if_pos hw, Option.map_eq_some'] at h
          obtain ⟨⟨n', r'⟩, hscan, heq⟩ := h
          injection heq with h1 h2
          subst h1
          subst h2
          obtain ⟨hcs, hok, hstop⟩ := (ih .inIdent n' r').mp hscan
          subst hcs
          refine ⟨rfl, ?_, hstop⟩
          show tailOk (c :: n') = true
          rw [tailOk_word_cons hw]
          exact hok
        · rintro ⟨hcs, hok, hstop⟩
          cases name with
          | nil =>
            simp only [List.nil_append] at hcs
            subst hcs
            obtain ⟨hw', _⟩ := hstop
            rw [hw] at hw'
            cases hw'
          | cons a n' =>
            injection hcs with h1 h2
            subst h1
            have hok' : tailOk (c :: n') = true := hok
            rw [tailOk_word_cons hw] at hok'
            have hrec := (ih .inIdent n' rest).mpr ⟨h2, hok', hstop⟩
            simp only [scanPathAux]
            rw [if_pos hw, hrec]
            rfl
      · by_cases hc : c = '.'
        · subst hc
          constructor
          · intro h
            simp only [scanPathAux] at h
            rw [if_neg hw, if_pos trivial, Option.map_eq_some'] at h
            obtain ⟨⟨n', r'⟩, hscan, heq⟩ := h
            injection heq with h1 h2
            subst h1
            subst h2
            obtain ⟨hcs, hok, hstop⟩ := (ih .expectIdent n' r').mp hscan
            subst hcs
            refine ⟨rfl, ?_, hstop⟩
            show tailOk ('.' :: n') = true
            rw [tailOk_dot_cons]
            exact hok
          · rintro ⟨hcs, hok, hstop⟩
            cases name with
            | nil =>
              simp only [List.nil_append] at hcs
              subst hcs
              obtain ⟨_, hd⟩ := hstop
              exact absurd rfl hd
            | cons a n' =>
              injection hcs with h1 h2
              subst h1
              have hok' : tailOk ('.' :: n') = true := hok
              rw [tailOk_dot_cons] at hok'
              have hrec := (ih .expectIdent n' rest).mpr ⟨h2, hok', hstop⟩
              simp only [scanPathAux]
              rw [if_neg hw, if_pos trivial, hrec]
              rfl
        · constructor
          · intro h
            simp only [scanPathAux] at h
            rw [if_neg hw, if_neg hc] at h
            simp only [Option.some.injEq, Prod.mk.injEq] at h
            obtain ⟨rfl, rfl⟩ := h
            exact ⟨rfl, tailOk_nil, Bool.eq_false_iff.mpr hw, hc⟩
          · rintro ⟨hcs, hok, hstop⟩
            cases name with
            | nil =>
              simp only [List.nil_append] at hcs
              subst hcs
              simp only [scanPathAux]
              rw [if_neg hw, if_neg hc]
            | cons a n' =>
              injection hcs with h1 h2
              subst h1
              exfalso
              have hok' : tailOk (c :: n') = true := hok
              rw [tailOk_other_cons (Bool.eq_false_iff.mpr hw) hc] at hok'
              cases hok'

theorem scanPath_spec (cs name rest : List Char) :
    scanPath cs = some (name, rest) ↔
      (cs = name ++ rest ∧ dottedOk name = true ∧ stopOk rest) :=
  scanPathAux_spec cs .expectIdent name rest

/-! ## The regex matches exactly the documented grammar -/

theorem parseArg_eq_grammarParse (s : String) : parseArg s = grammarParse s := by
  unfold parseArg grammarParse
  cases h : scanPath s.data with
  | none =>
    cases hs : splitFirstEq s.data with
    | none => rfl
    | some p =>
      obtain ⟨name, rest⟩ := p
      by_cases hd : dottedOk name = true
      · exfalso
        obtain ⟨hcs, _⟩ := splitFirstEq_sound hs
        have hscan : scanPath s.data = some (name, '=' :: rest) :=
          (scanPath_spec _ _ _).mpr ⟨hcs, hd, ⟨by decide, by decide⟩⟩
        rw [h] at hscan
        cases hscan
      · simp [hd]
  | some p =>
    obtain ⟨name, rest⟩ := p
    obtain ⟨hcs, hd, hstop⟩ := (scanPath_spec _ _ _).mp h
    have hne : '=' ∉ name := dottedOk_no_eq hd
    cases rest with
    | nil =>
      have hsf : splitFirstEq s.data = none := by
        rw [hcs]
        exact splitFirstEq_none.mpr (by simpa using hne)
      rw [hsf]
    | cons c v =>
      by_cases hc : c = '='
      · subst hc
        have hsf : splitFirstEq s.data = some (name, v) := by
          rw [hcs, splitFirstEq_append hne]
          simp [splitFirstEq]
        rw [hsf]
        simp [hd]
      · obtain ⟨hw, hdot⟩ := hstop
        cases hsp : splitFirstEq (c :: v) with
        | none =>
          have hsf : splitFirstEq s.data = none := by
            rw [hcs, splitFirstEq_append hne, hsp]
            rfl
          rw [hsf]
          simp [hc]
        | some q =>
          obtain ⟨a, b⟩ := q
          have hsf : splitFirstEq s.data = some (name ++ a, b) := by
            rw [hcs, splitFirstEq_append hne, hsp]
            rfl
          obtain ⟨hpre, _⟩ := splitFirstEq_sound hsp
          have hcmem : c ∈ name ++ a := by
            cases a with
            | nil =>
              exfalso
              simp only [List.nil_append] at hpre
              injection hpre with h1 _
              exact hc h1
            | cons a0 a' =>
              rw [List.cons_append] at hpre
              injection hpre with h1 _
              subst h1
              exact List.mem_append_right _ (List.mem_cons_self _ _)
          have hdk : dottedOk (name ++ a) = false := by
            cases hb : dottedOk (name ++ a) with
            | false => rfl
            | true =>
              exfalso
              rcases dottedOk_mem hb c hcmem with hwc | hdc
              · rw [hw] at hwc
                cases hwc
              · exact hdot hdc
          rw [hsf]
          simp [hc, hdk]

theorem parse_extension_arg_spec (s : String) (acc : List (String × String)) :
    parse_extension_arg s acc =
      match grammarParse s with
      | some (name, value) => .ok (setAssoc acc name value)
      | none => .error (.invalidArgumentSyntax s) := by
  unfold parse_extension_arg
  rw [parseArg_eq_grammarParse]

/-! ## Association-list lemmas -/

theorem lookupAssoc_setAssoc {κ : Type u} {α : Type v} [DecidableEq κ]
    (l : List (κ × α)) (k k' : κ) (v : α) :
    lookupAssoc (setAssoc l k v) k' = if k = k' then some v else lookupAssoc l k' := by
  induction l with
  | nil =>
    by_cases h1 : k = k' <;> simp [setAssoc, lookupAssoc, h1]
  | cons p t ih =>
    obtain ⟨k0, v0⟩ := p
    by_cases h0 : k0 = k
    · subst h0
      by_cases h1 : k0 = k' <;> simp [setAssoc, lookupAssoc, h1]
    · by_cases h1 : k0 = k'
      · subst h1
        have h2 : k ≠ k0 := fun he => h0 he.symm
        simp [setAssoc, lookupAssoc, h0, h2]
      · simp [setAssoc, lookupAssoc, h0, h1, ih]

/-! ## The parsing phase -/

theorem parsePhase_lookup (args : List String) (acc0 acc : List (String × String))
    (h : parsePhase args acc0 = .ok acc) (n : String) :
    lookupAssoc acc n =
      args.foldl (fun r s =>
        match parseArg s with
        | some (m, v) => if m = n then some v else r
        | none => r) (lookupAssoc acc0 n) := by
  induction args generalizing acc0 with
  | nil =>
    simp only [parsePhase, Except.ok.injEq] at h
    subst h
    rfl
  | cons a args ih =>
    simp only [parsePhase] at h
    cases hpa : parseArg a with
    | none =>
      rw [show parse_extension_arg a acc0 = .error (.invalidArgumentSyntax a) from by
        simp [parse_extension_arg, hpa]] at h
      cases h
    | some p =>
      obtain ⟨m, v⟩ := p
      rw [show parse_extension_arg a acc0 = .ok (setAssoc acc0 m v) from by
        simp [parse_extension_arg, hpa]] at h
      rw [List.foldl_cons]
      rw [ih _ h]
      have : lookupAssoc (setAssoc acc0 m v) n = if m = n then some v else lookupAssoc acc0 n :=
        lookupAssoc_setAssoc acc0 m n v
      rw [this]
      simp [hpa]

theorem parsePhase_ok (args : List String) (acc0 : List (String × String))
    (hall : ∀ s ∈ args, (parseArg s).isSome = true) :
    ∃ acc, parsePhase args acc0 = .ok acc := by
  induction args generalizing acc0 with
  | nil => exact ⟨acc0, rfl⟩
  | cons a args ih =>
    have ha := hall a (List.mem_cons_self a args)
    cases hpa : parseArg a with
    | none =>
      rw [hpa] at ha
      cases ha
    | some p =>
      obtain ⟨m, v⟩ := p
      obtain ⟨acc, hacc⟩ := ih (setAssoc acc0 m v) (fun s hs => hall s (List.mem_cons_of_mem a hs))
      refine ⟨acc, ?_⟩
      simp only [parsePhase, parse_extension_arg, hpa]
      exact hacc

/-! ## Claims C1, C3, C4, C7 -/

/-- **C1.**  For every raw argument string `s`, `parse_extension_arg(s, acc)`
succeeds exactly when `s` matches the grammar `identifier(.identifier)*=value`
(the split is at the first `=`, so the value may be empty or contain further
`=` characters); on success it inserts the full dotted-path string and the
value into the accumulator, and otherwise it fails with the
invalid-argument-syntax error naming the offending raw string.  `"a=1"`
yields path `["a"]` with value `"1"`, `"a.b.c=x=y"` yields path
`["a","b","c"]` with value `"x=y"`, and `"1a=x"`, `"a..b=x"`, `"novalue"`
each fail. -/
theorem claim_C1 :
    (∀ (s : String) (acc : List (String × String)),
      (∀ name value, grammarParse s = some (name, value) →
        parse_extension_arg s acc = .ok (setAssoc acc name value)) ∧
      (matchesGrammar s = false →
        parse_extension_arg s acc = .error (.invalidArgumentSyntax s))) ∧
    parseArg "a=1" = some ("a", "1") ∧ splitPath "a" = ["a"] ∧
    parseArg "a.b.c=x=y" = some ("a.b.c", "x=y") ∧ splitPath "a.b.c" = ["a", "b", "c"] ∧
    parseArg "1a=x" = none ∧ parseArg "a..b=x" = none ∧ parseArg "novalue" = none := by
  refine ⟨?_, rfl, rfl, rfl, rfl, rfl, rfl, rfl⟩
  intro s acc
  constructor
  · intro name value hg
    rw [parse_extension_arg_spec, hg]
  · intro hm
    rw [parse_extension_arg_spec]
    unfold matchesGrammar at hm
    cases hg : grammarParse s with
    | none => rfl
    | some p => simp [hg] at hm

/-- Witness for C1 at the concrete input `"a=1"` with an empty accumulator. -/
theorem claim_C1_witness :
    grammarParse "a=1" = some ("a", "1") ∧
      parse_extension_arg "a=1" [] = .ok (setAssoc [] "a" "1") :=
  ⟨rfl, (claim_C1.1 "a=1" []).1 "a" "1" rfl⟩

/-- **C3.**  Applying the raw arguments `["a.b=1", "a=2"]` (in that input
order) to an empty root raises the conflicting-namespace-assignment error
naming segment `a`: the length-ascending reordering applies `"a=2"` first,
setting attribute `a` to the string leaf `"2"`, and the subsequent attempt
of path `a.b` to descend through the now-scalar attribute `a` fails. -/
theorem claim_C3 :
    create_args ["a.b=1", "a=2"] [] =
      ([("a", .leaf "2")], some (.conflictingNamespaceAssignment "a")) ∧
    sortPairsByLen [("a.b", "1"), ("a", "2")] = [("a", "2"), ("a.b", "1")] ∧
    parsePhase ["a.b=1", "a=2"] [] = .ok [("a.b", "1"), ("a", "2")] := by
  refine ⟨rfl, rfl, rfl⟩

/-- **C4.**  `create_args` first parses all raw arguments into the
accumulator and only then mutates the namespace, applying the collected
dotted paths in ascending order of the full dotted-path string's length:
the application order is sorted by length and is a permutation of the
accumulator's keys, and the concrete example shows the order is neither
alphabetical nor the declaration order. -/
theorem claim_C4 :
    (∀ (args : List String) (root : NSAttrs),
      create_args args root =
        match parsePhase args [] with
        | .ok acc => applyPhase (sortPairsByLen acc) root
        | .error e => (root, some e)) ∧
    (∀ acc : List (String × String),
      List.Pairwise (fun a b : String × String => a.1.length ≤ b.1.length)
        (sortPairsByLen acc) ∧
      ((sortPairsByLen acc).map Prod.fst).Perm (acc.map Prod.fst)) ∧
    sortPairsByLen [("bbb", "1"), ("a", "2"), ("cc", "3")] =
      [("a", "2"), ("cc", "3"), ("bbb", "1")] := by
  refine ⟨fun args root => rfl, fun acc => ⟨?_, ?_⟩, rfl⟩
  · haveI ht : IsTotal (String × String) (fun a b => a.1.length ≤ b.1.length) :=
      ⟨fun a b => Nat.le_total a.1.length b.1.length⟩
    haveI htr : IsTrans (String × String) (fun a b => a.1.length ≤ b.1.length) :=
      ⟨fun a b c hab hbc => Nat.le_trans hab hbc⟩
    exact List.sorted_insertionSort _ acc
  · exact (List.perm_insertionSort _ acc).map Prod.fst

/-- **C7.**  If the same full dotted-path string is produced by several raw
arguments, the accumulator built by the parsing phase maps it to the value
of the latest occurrence in input order, and duplicates raise no error (the
phase succeeds whenever every individual argument parses). -/
theorem claim_C7 :
    (∀ (args : List String) (acc : List (String × String)),
      parsePhase args [] = .ok acc →
        ∀ n, lookupAssoc acc n = lastValue args n) ∧
    (∀ args : List String, (∀ s ∈ args, (parseArg s).isSome = true) →
      ∃ acc, parsePhase args [] = .ok acc) := by
  constructor
  · intro args acc h n
    have hlk := parsePhase_lookup args [] acc h n
    simpa [lastValue, lookupAssoc] using hlk
  · intro args hall
    exact parsePhase_ok args [] hall

/-- Witness for C7: `["a=1", "b=2", "a=3"]` leaves `"a" -> "3"`. -/
theorem claim_C7_witness :
    lookupAssoc [("a", "3"), ("b", "2")] "a" = lastValue ["a=1", "b=2", "a=3"] "a" ∧
      ∃ acc, parsePhase ["a=1", "b=2", "a=3"] [] = .ok acc :=
  ⟨claim_C7.1 ["a=1", "b=2", "a=3"] [("a", "3"), ("b", "2")] rfl "a",
   claim_C7.2 ["a=1", "b=2", "a=3"] (by decide)⟩

/-! ## Claims C2, C5, C6, C8 (the registry) -/

/-- **C2.**  For a declared capability `C` and a name `n`: while `n` is not
registered, `load(C, n)` fails with the not-registered error whose message
carries all currently registered names sorted lexicographically; and after
a successful `register(C, n, impl)`, `load(C, n)` returns exactly the
`impl` that `register` itself returned unchanged. -/
theorem claim_C2 {Cls : Type u} [DecidableEq Cls] (issub : Cls → Cls → Bool)
    (clsName : Cls → String) (reg : Registry Cls) (C : Cls)
    (m : RegistrationManager Cls) (n : String)
    (hdecl : lookupAssoc reg C = some m) :
    (lookupAssoc m.classes n = none →
      load clsName reg C n =
        .error (.nameNotRegistered (clsName m.dtype) n
          (sortedNames (m.classes.map Prod.fst))) ∧
      List.Sorted (fun a b : String => a ≤ b) (sortedNames (m.classes.map Prod.fst)) ∧
      (sortedNames (m.classes.map Prod.fst)).Perm (m.classes.map Prod.fst)) ∧
    (∀ impl reg' c', register issub clsName reg C n impl = .ok (reg', c') →
      c' = impl ∧ load clsName reg' C n = .ok impl) := by
  constructor
  · intro habs
    refine ⟨?_, ?_, ?_⟩
    · simp [load, get_registration_manager, hdecl, Except.bind, RegistrationManager.load, habs]
    · exact List.sorted_insertionSort _ _
    · exact List.perm_insertionSort _ _
  · intro impl reg' c' hreg
    simp only [register, get_registration_manager, hdecl, Except.bind] at hreg
    by_cases hcr : m.class_registered n = true
    · simp [RegistrationManager.register, hcr, Except.map] at hreg
    · by_cases hsub : issub impl m.dtype = true
      · simp only [RegistrationManager.register, hcr, if_false, hsub, Bool.not_true,
          Except.map, Except.ok.injEq, Prod.mk.injEq] at hreg
        obtain ⟨hr, hc⟩ := hreg
        refine ⟨rfl, ?_⟩
        simp [load, get_registration_manager, lookupAssoc_setAssoc, Except.bind,
          RegistrationManager.load]
      · simp [RegistrationManager.register, hcr, hsub, Except.map] at hreg

/-- Witness for C2 on a concrete two-entry manager under capability `0`. -/
theorem claim_C2_witness :
    (load (fun _ : Nat => "T") [(0, ⟨0, [("b", 1), ("a", 2)]⟩)] 0 "c" =
        .error (.nameNotRegistered "T" "c"
          (sortedNames ((([("b", 1), ("a", 2)] : List (String × Nat))).map Prod.fst))) ∧
      List.Sorted (fun a b : String => a ≤ b)
        (sortedNames ((([("b", 1), ("a", 2)] : List (String × Nat))).map Prod.fst)) ∧
      (sortedNames ((([("b", 1), ("a", 2)] : List (String × Nat))).map Prod.fst)).Perm
        ((([("b", 1), ("a", 2)] : List (String × Nat))).map Prod.fst)) ∧
    (7 = 7 ∧
      load (fun _ : Nat => "T") [(0, ⟨0, [("b", 1), ("a", 2), ("c", 7)]⟩)] 0 "c" = .ok 7) := by
  have h := claim_C2 (fun _ _ : Nat => true) (fun _ : Nat => "T")
    [(0, ⟨0, [("b", 1), ("a", 2)]⟩)] 0 ⟨0, [("b", 1), ("a", 2)]⟩ "c" rfl
  exact ⟨h.1 rfl, h.2 7 [(0, ⟨0, [("b", 1), ("a", 2), ("c", 7)]⟩)] 7 rfl⟩

/-- **C5.**  After a successful `register(C, n, impl1)`, a second
`register(C, n, impl2)` fails with the duplicate-registration error and the
registry is not modified: `load(C, n)` still returns `impl1`. -/
theorem claim_C5 {Cls : Type u} [DecidableEq Cls] (issub : Cls → Cls → Bool)
    (clsName : Cls → String) (reg : Registry Cls) (C : Cls)
    (m : RegistrationManager Cls) (n : String) (impl1 impl2 : Cls)
    (hdecl : lookupAssoc reg C = some m)
    (reg' : Registry Cls) (c1 : Cls)
    (h1 : register issub clsName reg C n impl1 = .ok (reg', c1)) :
    register issub clsName reg' C n impl2 =
      .error (.duplicateRegistration (clsName m.dtype) n) ∧
    load clsName reg' C n = .ok impl1 := by
  simp only [register, get_registration_manager, hdecl, Except.bind] at h1
  by_cases hcr : m.class_registered n = true
  · simp [RegistrationManager.register, hcr, Except.map] at h1
  · by_cases hsub : issub impl1 m.dtype = true
    · simp only [RegistrationManager.register, hcr, if_false, hsub, Bool.not_true,
        Except.map, Except.ok.injEq, Prod.mk.injEq] at h1
      obtain ⟨hr, hc⟩ := h1
      constructor
      · simp [register, get_registration_manager, lookupAssoc_setAssoc, Except.bind,
          RegistrationManager.register, RegistrationManager.class_registered, Except.map]
      · simp [load, get_registration_manager, lookupAssoc_setAssoc, Except.bind,
          RegistrationManager.load]
    · simp [RegistrationManager.register, hcr, hsub, Except.map] at h1

/-- Witness for C5: registering `"n"` twice under capability `0`. -/
theorem claim_C5_witness :
    register (fun _ _ : Nat => true) (fun _ : Nat => "T")
        [(0, ⟨0, [("n", 1)]⟩)] 0 "n" 2 =
      .error (.duplicateRegistration "T" "n") ∧
    load (fun _ : Nat => "T") [(0, ⟨0, [("n", 1)]⟩)] 0 "n" = .ok 1 :=
  claim_C5 (fun _ _ : Nat => true) (fun _ : Nat => "T") [(0, ⟨0, []⟩)] 0
    ⟨0, []⟩ "n" 1 2 rfl [(0, ⟨0, [("n", 1)]⟩)] 1 rfl

/-- Counterexample to **C6** as stated: when the name is already registered,
`register` with a non-subclass fails with the duplicate-registration error,
not with the type-mismatch error. -/
theorem claim_C6_counterexample :
    register (fun _ _ : Nat => false) (fun _ : Nat => "T")
        [(0, ⟨0, [("n", 1)]⟩)] 0 "n" 2 =
      .error (.duplicateRegistration "T" "n") ∧
    (match register (fun _ _ : Nat => false) (fun _ : Nat => "T")
        [(0, ⟨0, [("n", 1)]⟩)] 0 "n" 2 with
      | .error (.typeMismatch _) => True
      | _ => False) = False := by
  exact ⟨rfl, rfl⟩

/-- **C6 (amended).**  For a declared capability `C`, a name `n` that is
*not yet registered* and an implementation that does not satisfy the is-a
relationship, `register(C, n, impl)` fails with the type-mismatch error at
registration time and `n` remains unregistered (the duplicate check runs
first, so an already-registered name yields the duplicate error instead). -/
theorem claim_C6 {Cls : Type u} [DecidableEq Cls] (issub : Cls → Cls → Bool)
    (clsName : Cls → String) (reg : Registry Cls) (C : Cls)
    (m : RegistrationManager Cls) (n : String) (impl : Cls)
    (hdecl : lookupAssoc reg C = some m)
    (hfree : lookupAssoc m.classes n = none)
    (hsub : issub impl m.dtype = false) :
    register issub clsName reg C n impl = .error (.typeMismatch (clsName m.dtype)) ∧
    class_registered reg C n = .ok false := by
  constructor
  · simp [register, get_registration_manager, hdecl, Except.bind,
      RegistrationManager.register, RegistrationManager.class_registered, hfree, hsub,
      Except.map]
  · simp [class_registered, get_registration_manager, hdecl, Except.map,
      RegistrationManager.class_registered, hfree]

/-- Witness for the amended C6. -/
theorem claim_C6_witness :
    register (fun _ _ : Nat => false) (fun _ : Nat => "T")
        [(0, ⟨0, [("k", 9)]⟩)] 0 "n" 2 =
      .error (.typeMismatch "T") ∧
    class_registered [(0, (⟨0, [("k", 9)]⟩ : RegistrationManager Nat))] 0 "n" = .ok false :=
  claim_C6 (fun _ _ : Nat => false) (fun _ : Nat => "T") [(0, ⟨0, [("k", 9)]⟩)] 0
    ⟨0, [("k", 9)]⟩ "n" 2 rfl rfl rfl

/-- **C8.**  For distinct declared capabilities `C` and `C'`, `clear(C)`
empties `C`'s manager and leaves `C'`'s manager untouched. -/
theorem claim_C8 {Cls : Type u} [DecidableEq Cls] (reg : Registry Cls) (C C' : Cls)
    (m m' : RegistrationManager Cls)
    (hne : C ≠ C')
    (h1 : lookupAssoc reg C = some m) (h2 : lookupAssoc reg C' = some m') :
    ∃ reg'', clear reg C = .ok reg'' ∧
      lookupAssoc reg'' C = some { m with classes := [] } ∧
      lookupAssoc reg'' C' = some m' := by
  refine ⟨setAssoc reg C m.clear, ?_, ?_, ?_⟩
  · simp [clear, get_registration_manager, h1, Except.map]
  · rw [lookupAssoc_setAssoc]
    simp [RegistrationManager.clear]
  · rw [lookupAssoc_setAssoc]
    simp [hne, h2]

/-- Witness for C8 with capabilities `0` and `1`. -/
theorem claim_C8_witness :
    ∃ reg'',
      clear [(0, (⟨0, [("x", 5)]⟩ : RegistrationManager Nat)), (1, ⟨1, [("y", 6)]⟩)] 0 =
        .ok reg'' ∧
      lookupAssoc reg'' 0 = some ⟨0, []⟩ ∧
      lookupAssoc reg'' 1 = some ⟨1, [("y", 6)]⟩ :=
  claim_C8 [(0, ⟨0, [("x", 5)]⟩), (1, ⟨1, [("y", 6)]⟩)] 0 1
    ⟨0, [("x", 5)]⟩ ⟨1, [("y", 6)]⟩ (by decide) rfl rfl

/-! ## The application phase: error position and retained state -/

theorem applyPhase_error (pairs : List (String × String)) :
    ∀ (root r : NSAttrs) (e : ExtError),
      applyPhase pairs root = (r, some e) →
      ∃ pre n v post, pairs = pre ++ (n, v) :: post ∧
        applyAllOk pre root = some r ∧
        update_namespace r (splitPath n) v = .error e := by
  induction pairs with
  | nil =>
    intro root r e h
    simp [applyPhase] at h
  | cons pv rest ih =>
    obtain ⟨n, v⟩ := pv
    intro root r e h
    cases hu : update_namespace root (splitPath n) v with
    | ok root' =>
      rw [show applyPhase ((n, v) :: rest) root = applyPhase rest root' from by
        simp [applyPhase, hu]] at h
      obtain ⟨pre, n', v', post, hsplit, hok, herr⟩ := ih root' r e h
      exact ⟨(n, v) :: pre, n', v', post, by simp [hsplit],
        by simp [applyAllOk, hu, hok], herr⟩
    | error e' =>
      rw [show applyPhase ((n, v) :: rest) root = (root, some e') from by
        simp [applyPhase, hu]] at h
      injection h with h1 h2
      subst h1
      injection h2 with h2
      subst h2
      exact ⟨[], n, v, rest, rfl, rfl, hu⟩

theorem applyPhase_success (pairs : List (String × String)) :
    ∀ (root r : NSAttrs), applyPhase pairs root = (r, none) →
      applyAllOk pairs root = some r := by
  induction pairs with
  | nil =>
    intro root r h
    simp only [applyPhase, Prod.mk.injEq] at h
    simp [applyAllOk, h.1]
  | cons pv rest ih =>
    obtain ⟨n, v⟩ := pv
    intro root r h
    cases hu : update_namespace root (splitPath n) v with
    | ok root' =>
      rw [show applyPhase ((n, v) :: rest) root = applyPhase rest root' from by
        simp [applyPhase, hu]] at h
      simp [applyAllOk, hu, ih root' r h]
    | error e' =>
      rw [show applyPhase ((n, v) :: rest) root = (root, some e') from by
        simp [applyPhase, hu]] at h
      simp at h

/-- **C10.**  `create_args` is not atomic with respect to the conflict
error: when applying the length-sorted paths fails at some entry, the
returned root keeps exactly the mutations of the entries applied before the
failing one (no rollback occurs); by contrast, an invalid-argument-syntax
error arises during the parsing phase and leaves the root completely
unchanged. -/
theorem claim_C10 :
    (∀ (args : List String) (root : NSAttrs) (e : ExtError),
      parsePhase args [] = .error e →
        create_args args root = (root, some e)) ∧
    (∀ (args : List String) (acc : List (String × String)) (root r : NSAttrs) (e : ExtError),
      parsePhase args [] = .ok acc →
      applyPhase (sortPairsByLen acc) root = (r, some e) →
        create_args args root = (r, some e) ∧
        ∃ pre n v post,
          sortPairsByLen acc = pre ++ (n, v) :: post ∧
          applyAllOk pre root = some r ∧
          update_namespace r (splitPath n) v = .error e) := by
  constructor
  · intro args root e h
    simp [create_args, h]
  · intro args acc root r e hp ha
    exact ⟨by simp [create_args, hp, ha], applyPhase_error _ _ _ _ ha⟩

/-- Witness for C10: the conflict at `"b"` keeps the leaves `a = "1"` and
`b = "3"` already applied, and a syntax error leaves the root unchanged. -/
theorem claim_C10_witness :
    (create_args ["a=1", "b.c=2", "b=3"] [] =
        ([("a", .leaf "1"), ("b", .leaf "3")], some (.conflictingNamespaceAssignment "b")) ∧
      ∃ pre n v post,
        sortPairsByLen [("a", "1"), ("b.c", "2"), ("b", "3")] = pre ++ (n, v) :: post ∧
        applyAllOk pre [] = some [("a", .leaf "1"), ("b", .leaf "3")] ∧
        update_namespace [("a", .leaf "1"), ("b", .leaf "3")] (splitPath n) v =
          .error (.conflictingNamespaceAssignment "b")) ∧
    create_args ["novalue"] [("z", .leaf "9")] =
      ([("z", .leaf "9")], some (.invalidArgumentSyntax "novalue")) :=
  ⟨claim_C10.2 ["a=1", "b.c=2", "b=3"] [("a", "1"), ("b.c", "2"), ("b", "3")] []
      [("a", .leaf "1"), ("b", .leaf "3")] (.conflictingNamespaceAssignment "b") rfl rfl,
   claim_C10.1 ["novalue"] [("z", .leaf "9")] (.invalidArgumentSyntax "novalue") rfl⟩

/-! ## Positions, node origins and path lengths (for C9) -/

theorem getPath_nil_attrs (p : List String) : getPath [] p = none := by
  rcases p with _ | ⟨x, _ | ⟨y, pr⟩⟩ <;> simp [getPath, lookupAssoc]

theorem getPath_setAssoc_self {attrs : NSAttrs} {k : String} {t : NSTree} :
    getPath (setAssoc attrs k t) [k] = some t := by
  simp [getPath, lookupAssoc_setAssoc]

theorem getPath_setAssoc_self_cons {attrs : NSAttrs} {k y : String} {p : List String}
    {sub : NSAttrs} :
    getPath (setAssoc attrs k (.node sub)) (k :: y :: p) = getPath sub (y :: p) := by
  simp [getPath, lookupAssoc_setAssoc]

theorem getPath_setAssoc_ne {attrs : NSAttrs} {k x : String} {t : NSTree} (hne : k ≠ x)
    (p : List String) : getPath (setAssoc attrs k t) (x :: p) = getPath attrs (x :: p) := by
  cases p with
  | nil => simp [getPath, lookupAssoc_setAssoc, hne]
  | cons y pr => simp [getPath, lookupAssoc_setAssoc, hne]

/-- A successful `update_namespace` call creates namespace nodes only at
strict ancestors of its own path: any node position of the result either
already held a node or is a strict ancestor of the updated path. -/
theorem update_namespace_node_origin (path : List String) :
    ∀ (attrs attrs' : NSAttrs) (value : String),
      update_namespace attrs path value = .ok attrs' →
      ∀ (p : List String) (sub' : NSAttrs), getPath attrs' p = some (.node sub') →
        (∃ sub, getPath attrs p = some (.node sub)) ∨ (∃ r, r ≠ [] ∧ path = p ++ r) := by
  induction path with
  | nil =>
    intro attrs attrs' value h
    simp [update_namespace] at h
  | cons p0 rest ih =>
    intro attrs attrs' value h
    cases rest with
    | nil =>
      simp only [update_namespace, Except.ok.injEq] at h
      subst h
      intro p sub' hget
      left
      cases p with
      | nil => simp [getPath] at hget
      | cons x pr =>
        by_cases hx : p0 = x
        · subst hx
          cases pr with
          | nil =>
            rw [getPath_setAssoc_self] at hget
            simp at hget
          | cons y pr' =>
            simp [getPath, lookupAssoc_setAssoc] at hget
        · rw [getPath_setAssoc_ne hx] at hget
          exact ⟨sub', hget⟩
    | cons q qrest =>
      simp only [update_namespace] at h
      cases hl : lookupAssoc attrs p0 with
      | none =>
        simp only [hl] at h
        cases hu : update_namespace [] (q :: qrest) value with
        | error e =>
          rw [hu] at h
          simp [Except.map] at h
        | ok sub1 =>
          rw [hu] at h
          simp only [Except.map, Except.ok.injEq] at h
          subst h
          intro p sub' hget
          cases p with
          | nil => simp [getPath] at hget
          | cons x pr =>
            by_cases hx : p0 = x
            · subst hx
              cases pr with
              | nil =>
                right
                exact ⟨q :: qrest, by simp, rfl⟩
              | cons y pr' =>
                rw [getPath_setAssoc_self_cons] at hget
                rcases ih [] sub1 value hu (y :: pr') sub' hget with ⟨s0, h0⟩ | ⟨r, hr, hqr⟩
                · rw [getPath_nil_attrs] at h0
                  cases h0
                · right
                  refine ⟨r, hr, ?_⟩
                  rw [List.cons_append, hqr]
            · rw [getPath_setAssoc_ne hx] at hget
              left
              exact ⟨sub', hget⟩
      | some t =>
        cases t with
        | leaf s =>
          simp only [hl] at h
          cases h
        | node sub =>
          simp only [hl] at h
          cases hu : update_namespace sub (q :: qrest) value with
          | error e =>
            rw [hu] at h
            simp [Except.map] at h
          | ok sub1 =>
            rw [hu] at h
            simp only [Except.map, Except.ok.injEq] at h
            subst h
            intro p sub' hget
            cases p with
            | nil => simp [getPath] at hget
            | cons x pr =>
              by_cases hx : p0 = x
              · subst hx
                cases pr with
                | nil =>
                  left
                  exact ⟨sub, by simp [getPath, hl]⟩
                | cons y pr' =>
                  rw [getPath_setAssoc_self_cons] at hget
                  rcases ih sub sub1 value hu (y :: pr') sub' hget with ⟨s0, h0⟩ | ⟨r, hr, hqr⟩
                  · left
                    exact ⟨s0, by simp [getPath, hl, h0]⟩
                  · right
                    refine ⟨r, hr, ?_⟩
                    rw [List.cons_append, hqr]
              · rw [getPath_setAssoc_ne hx] at hget
                left
                exact ⟨sub', hget⟩

/-- `update_namespace` fails on a nonempty parsed path only with the
conflicting-assignment error. -/
theorem update_namespace_error (path : List String) :
    ∀ (attrs : NSAttrs) (value : String) (e : ExtError),
      update_namespace attrs path value = .error e →
      (path = [] ∧ e = .emptyPath) ∨ ∃ seg, e = .conflictingNamespaceAssignment seg := by
  induction path with
  | nil =>
    intro attrs value e h
    simp only [update_namespace, Except.error.injEq] at h
    exact Or.inl ⟨rfl, h.symm⟩
  | cons p0 rest ih =>
    intro attrs value e h
    cases rest with
    | nil => simp [update_namespace] at h
    | cons q qrest =>
      simp only [update_namespace] at h
      cases hl : lookupAssoc attrs p0 with
      | none =>
        simp only [hl] at h
        cases hu : update_namespace [] (q :: qrest) value with
        | ok s =>
          rw [hu] at h
          simp [Except.map] at h
        | error e2 =>
          rw [hu] at h
          have he : e2 = e := by simpa [Except.map] using h
          subst he
          rcases ih [] value e2 hu with ⟨hc, _⟩ | hseg
          · cases hc
          · exact Or.inr hseg
      | some t =>
        cases t with
        | leaf s =>
          simp only [hl] at h
          right
          refine ⟨p0, ?_⟩
          injection h with h1
          exact h1.symm
        | node sub =>
          simp only [hl] at h
          cases hu : update_namespace sub (q :: qrest) value with
          | ok s =>
            rw [hu] at h
            simp [Except.map] at h
          | error e2 =>
            rw [hu] at h
            have he : e2 = e := by simpa [Except.map] using h
            subst he
            rcases ih sub value e2 hu with ⟨hc, _⟩ | hseg
            · cases hc
            · exact Or.inr hseg

theorem joinDots_splitOnDot (cs : List Char) : joinDots (splitOnDot cs) = cs := by
  induction cs with
  | nil => rfl
  | cons c cs ih =>
    obtain ⟨s, rest, hs⟩ := splitOnDot_exists cs
    by_cases hc : c = '.'
    · subst hc
      rw [splitOnDot_dot, hs]
      rw [hs] at ih
      cases rest with
      | nil =>
        simp only [joinDots] at ih ⊢
        rw [ih]
        rfl
      | cons s2 rest2 =>
        simp only [joinDots] at ih ⊢
        rw [ih]
        rfl
    · rw [splitOnDot_cons hc hs]
      rw [hs] at ih
      cases rest with
      | nil =>
        simp only [joinDots] at ih ⊢
        rw [ih]
      | cons s2 rest2 =>
        simp only [joinDots] at ih ⊢
        rw [← ih]
        rfl

theorem joinDots_append (A B : List (List Char)) (hA : A ≠ []) (hB : B ≠ []) :
    joinDots (A ++ B) = joinDots A ++ '.' :: joinDots B := by
  induction A with
  | nil => cases hA rfl
  | cons s A ih =>
    cases A with
    | nil =>
      cases B with
      | nil => cases hB rfl
      | cons b B' => simp [joinDots]
    | cons s2 A' =>
      have ih' := ih (by simp)
      show joinDots (s :: (s2 :: (A' ++ B))) = joinDots (s :: s2 :: A') ++ '.' :: joinDots B
      have h1 : joinDots (s :: (s2 :: (A' ++ B))) = s ++ '.' :: joinDots (s2 :: (A' ++ B)) := by
        simp [joinDots]
      have h2 : joinDots (s :: s2 :: A') = s ++ '.' :: joinDots (s2 :: A') := by
        simp [joinDots]
      rw [h1, h2]
      have h3 : (s2 :: (A' ++ B)) = (s2 :: A') ++ B := rfl
      rw [h3, ih']
      simp

theorem data_String_mk (l : List Char) : (String.mk l).data = l := rfl

theorem map_data_map_mk (L : List (List Char)) :
    (L.map String.mk).map (fun s : String => s.data) = L := by
  induction L with
  | nil => rfl
  | cons a L ih => simp [ih, data_String_mk]

theorem splitPath_extends_length {q n : String} {r : List String}
    (hqr : splitPath q = splitPath n ++ r) (hr : r ≠ []) :
    n.length < q.length := by
  have hq : splitOnDot q.data = splitOnDot n.data ++ r.map (fun s : String => s.data) := by
    have hmap := congrArg (List.map (fun s : String => s.data)) hqr
    simp only [splitPath, List.map_append, map_data_map_mk] at hmap
    exact hmap
  have hA : splitOnDot n.data ≠ [] := by
    obtain ⟨s, rest, hs⟩ := splitOnDot_exists n.data
    simp [hs]
  have hB : r.map (fun s : String => s.data) ≠ [] := by
    simpa using hr
  have hjoin : q.data = n.data ++ '.' :: joinDots (r.map (fun s : String => s.data)) := by
    rw [← joinDots_splitOnDot q.data, hq, joinDots_append _ _ hA hB, joinDots_splitOnDot]
  have h1 : n.length = n.data.length := rfl
  have h2 : q.length = q.data.length := rfl
  have h3 : q.data.length = n.data.length + 1 + (joinDots (r.map (fun s : String => s.data))).length := by
    rw [hjoin]
    simp [List.length_append]
    omega
  omega

/-- The instrumented run never overwrites a namespace node with a leaf, as
long as every node position of the current tree is a strict ancestor of
some already-applied path, every already-applied path is no longer than any
remaining entry, and the remaining entries are sorted by ascending name
length. -/
theorem applyPhaseCheck_false (pairs : List (String × String)) :
    ∀ (attrs : NSAttrs) (applied : List String),
      (∀ p sub, getPath attrs p = some (NSTree.node sub) →
        ∃ q ∈ applied, ∃ r, r ≠ [] ∧ splitPath q = p ++ r) →
      (∀ q ∈ applied, ∀ pr ∈ pairs, q.length ≤ pr.1.length) →
      List.Pairwise (fun a b : String × String => a.1.length ≤ b.1.length) pairs →
      applyPhaseCheck pairs attrs = false := by
  induction pairs with
  | nil =>
    intro attrs applied _ _ _
    rfl
  | cons pv rest ih =>
    obtain ⟨n, v⟩ := pv
    intro attrs applied hinv hbound hsort
    have hnov : finalOverwritesNode attrs (splitPath n) = false := by
      cases hg : getPath attrs (splitPath n) with
      | none => simp [finalOverwritesNode, hg]
      | some t =>
        cases t with
        | leaf s => simp [finalOverwritesNode, hg]
        | node sub =>
          exfalso
          obtain ⟨q, hq, r, hr, hqr⟩ := hinv _ _ hg
          have hle : q.length ≤ n.length := hbound q hq (n, v) (List.mem_cons_self _ _)
          have hlt : n.length < q.length := splitPath_extends_length hqr hr
          omega
    simp only [applyPhaseCheck, hnov, Bool.false_or]
    cases hu : update_namespace attrs (splitPath n) v with
    | error e => rfl
    | ok attrs' =>
      apply ih attrs' (n :: applied)
      · intro p sub hget
        rcases update_namespace_node_origin _ _ _ _ hu p sub hget with ⟨s0, h0⟩ | ⟨r, hr, hpr⟩
        · obtain ⟨q, hq, r, hr, hqr⟩ := hinv _ _ h0
          exact ⟨q, List.mem_cons_of_mem _ hq, r, hr, hqr⟩
        · exact ⟨n, List.mem_cons_self _ _, r, hr, hpr⟩
      · intro q hq pr hpr
        rcases List.mem_cons.mp hq with rfl | hq
        · exact (List.pairwise_cons.mp hsort).1 pr hpr
        · exact hbound q hq pr (List.mem_cons_of_mem _ hpr)
      · exact (List.pairwise_cons.mp hsort).2

/-- **C9.**  In a run of `create_args` on an initially empty root, no
attribute currently holding a namespace node is ever overwritten by a
string leaf at a final path segment; because paths are applied in ascending
length order the only reachable conflict is a longer path meeting a string
leaf left by a shorter path, and every error the application phase can
raise is a conflicting-namespace-assignment error. -/
theorem claim_C9 (args : List String) (acc : List (String × String))
    (_hp : parsePhase args [] = .ok acc) :
    applyPhaseCheck (sortPairsByLen acc) [] = false ∧
    (∀ r e, applyPhase (sortPairsByLen acc) [] = (r, some e) →
      ∃ seg, e = .conflictingNamespaceAssignment seg) := by
  constructor
  · apply applyPhaseCheck_false _ [] []
    · intro p sub hget
      rw [getPath_nil_attrs] at hget
      cases hget
    · intro q hq
      simp at hq
    · haveI ht : IsTotal (String × String) (fun a b => a.1.length ≤ b.1.length) :=
        ⟨fun a b => Nat.le_total a.1.length b.1.length⟩
      haveI htr : IsTrans (String × String) (fun a b => a.1.length ≤ b.1.length) :=
        ⟨fun a b c hab hbc => Nat.le_trans hab hbc⟩
      exact List.sorted_insertionSort _ _
  · intro r e h
    obtain ⟨pre, n, v, post, hsplit, hok, herr⟩ := applyPhase_error _ _ _ _ h
    rcases update_namespace_error _ _ _ _ herr with ⟨hnil, _⟩ | hseg
    · exfalso
      obtain ⟨s, rest, hs⟩ := splitOnDot_exists n.data
      simp [splitPath, hs] at hnil
    · exact hseg

/-- Witness for C9 on the conflicting pair from the specification. -/
theorem claim_C9_witness :
    applyPhaseCheck (sortPairsByLen [("a.b", "1"), ("a", "2")]) [] = false ∧
      ∃ seg, ExtError.conflictingNamespaceAssignment "a" =
        .conflictingNamespaceAssignment seg :=
  ⟨(claim_C9 ["a.b=1", "a=2"] [("a.b", "1"), ("a", "2")] rfl).1,
   (claim_C9 ["a.b=1", "a=2"] [("a.b", "1"), ("a", "2")] rfl).2
     [("a", .leaf "2")] (.conflictingNamespaceAssignment "a") rfl⟩

end ZiplineExtensions
